import Mathlib

/-!
Verification of the SVS whole-slide-image de-identifier
(`synthetic_phi/whole_slide_image/src/svs.py`).

The file is modelled as a flat byte buffer (`List Nat`, each entry one
byte).  Writes past the end of the file extend it, zero-padding the gap,
matching POSIX `seek`+`write` semantics used by the Python code.  The
container's numeric fields (tag counts, IFD pointers) are little-endian,
as in classic SVS/TIFF (`'II'` byte order).
-/

namespace Svs

/-- Write one byte `v` at position `i`; if `i` is past the end of the
file, the file is extended with zero padding, as a POSIX seek-past-end
write does. -/
def writeByte (f : List Nat) (i : Nat) (v : Nat) : List Nat :=
  if i < f.length then f.set i v
  else f ++ List.replicate (i - f.length) 0 ++ [v]

/-- Write a run of bytes starting at `off` (`fp.seek(off); fp.write(bs)`). -/
def writeBytesAt : List Nat → Nat → List Nat → List Nat
  | f, _, [] => f
  | f, off, b :: bs => writeBytesAt (writeByte f off b) (off + 1) bs

/-- Read the byte at position `i` (0 past the end of the file). -/
def readByte (f : List Nat) (i : Nat) : Nat := f.getD i 0

/-- Read `n` bytes starting at `off`. -/
def readBytesAt (f : List Nat) (off n : Nat) : List Nat :=
  (List.range n).map (fun j => readByte f (off + j))

/-- Little-endian decoding of a byte list into a number, as
`struct.unpack` with a little-endian format does. -/
def decodeLE : List Nat → Nat
  | [] => 0
  | b :: bs => b % 256 + 256 * decodeLE bs

/-- Little-endian encoding of `v` into `w` bytes, as `struct.pack`
with a little-endian format does. -/
def encodeLE : Nat → Nat → List Nat
  | 0, _ => []
  | w + 1, v => v % 256 :: encodeLE w (v / 256)

theorem length_encodeLE (w v : Nat) : (encodeLE w v).length = w := by
  induction w generalizing v with
  | zero => rfl
  | succ w ih => simp [encodeLE, ih]

theorem decodeLE_lt (bs : List Nat) : decodeLE bs < 256 ^ bs.length := by
  induction bs with
  | nil => simp [decodeLE]
  | cons b bs ih =>
    have hb : b % 256 < 256 := Nat.mod_lt _ (by omega)
    have hm : 256 * decodeLE bs + 256 ≤ 256 * 256 ^ bs.length := by omega
    have hgoal : decodeLE (b :: bs) = b % 256 + 256 * decodeLE bs := rfl
    rw [hgoal, List.length_cons, pow_succ]
    omega

theorem decodeLE_encodeLE (w v : Nat) : decodeLE (encodeLE w v) = v % 256 ^ w := by
  induction w generalizing v with
  | zero => simp [encodeLE, decodeLE, Nat.mod_one]
  | succ w ih =>
    simp only [encodeLE, decodeLE, ih]
    have hmm : v % 256 % 256 = v % 256 := Nat.mod_mod_of_dvd _ dvd_rfl
    have hsplit : v % (256 * 256 ^ w) = v % 256 + 256 * (v / 256 % 256 ^ w) :=
      Nat.mod_mul
    rw [pow_succ, mul_comm (256 ^ w) 256]
    omega

theorem readByte_writeByte_self (f : List Nat) (i v : Nat) :
    readByte (writeByte f i v) i = v := by
  unfold readByte writeByte
  by_cases h : i < f.length
  · simp [h]
  · simp only [if_neg h, List.getD_eq_getElem?_getD]
    have hlen : (f ++ List.replicate (i - f.length) 0).length = i := by
      simp; omega
    rw [List.getElem?_append_right (le_of_eq hlen), hlen]
    simp

theorem readByte_writeByte_ne (f : List Nat) (i v j : Nat) (h : j ≠ i) :
    readByte (writeByte f i v) j = readByte f j := by
  unfold readByte writeByte
  by_cases hi : i < f.length
  · simp [hi, List.getElem?_set_ne (Ne.symm h)]
  · simp only [if_neg hi, List.getD_eq_getElem?_getD]
    by_cases hj : j < f.length
    · rw [List.getElem?_append_left (by simp; omega),
        List.getElem?_append_left hj]
    · rw [List.getElem?_eq_none (l := f) (by omega)]
      by_cases hj2 : j < i
      · rw [List.getElem?_append_left (by simp; omega),
          List.getElem?_append_right (by omega),
          List.getElem?_replicate]
        split <;> rfl
      · rw [List.getElem?_append_right (by simp; omega)]
        rw [List.getElem?_eq_none (by simp; omega)]

theorem readByte_writeBytesAt_outside (bs : List Nat) (f : List Nat)
    (off j : Nat) (h : j < off ∨ off + bs.length ≤ j) :
    readByte (writeBytesAt f off bs) j = readByte f j := by
  induction bs generalizing f off with
  | nil => rfl
  | cons b bs ih =>
    show readByte (writeBytesAt (writeByte f off b) (off + 1) bs) j = _
    rw [ih (writeByte f off b) (off + 1) (by simp at h; omega)]
    exact readByte_writeByte_ne f off b j (by simp at h; omega)

theorem readByte_writeBytesAt_inside (bs : List Nat) (f : List Nat)
    (off j : Nat) (h1 : off ≤ j) (h2 : j < off + bs.length) :
    readByte (writeBytesAt f off bs) j = bs.getD (j - off) 0 := by
  induction bs generalizing f off with
  | nil => simp at h2; omega
  | cons b bs ih =>
    show readByte (writeBytesAt (writeByte f off b) (off + 1) bs) j = _
    by_cases hj : j = off
    · subst hj
      rw [readByte_writeBytesAt_outside bs _ _ _ (by omega)]
      simp [readByte_writeByte_self]
    · rw [ih (writeByte f off b) (off + 1) (by omega) (by simp at h2; omega)]
      have hsub : j - off = (j - (off + 1)) + 1 := by omega
      rw [hsub]
      rfl

theorem readBytesAt_length (f : List Nat) (off n : Nat) :
    (readBytesAt f off n).length = n := by
  simp [readBytesAt]

theorem readBytesAt_writeBytesAt_self (bs : List Nat) (f : List Nat) (off : Nat) :
    readBytesAt (writeBytesAt f off bs) off bs.length = bs := by
  apply List.ext_getElem
  · simp [readBytesAt]
  · intro j h1 h2
    simp only [readBytesAt, List.getElem_map, List.getElem_range]
    rw [readByte_writeBytesAt_inside bs f off (off + j) (by omega)
      (by simp [readBytesAt] at h1; omega)]
    have : off + j - off = j := by omega
    rw [this]
    exact List.getD_eq_getElem bs 0 h2

theorem readBytesAt_writeBytesAt_disj (bs : List Nat) (f : List Nat)
    (woff off n : Nat) (h : off + n ≤ woff ∨ woff + bs.length ≤ off) :
    readBytesAt (writeBytesAt f woff bs) off n = readBytesAt f off n := by
  unfold readBytesAt
  apply List.map_congr_left
  intro j hj
  simp only [List.mem_range] at hj
  exact readByte_writeBytesAt_outside bs f woff (off + j) (by omega)

theorem length_writeByte_of_lt (f : List Nat) (i v : Nat) (h : i < f.length) :
    (writeByte f i v).length = f.length := by
  simp [writeByte, h]

theorem length_writeBytesAt_of_le (bs : List Nat) (f : List Nat) (off : Nat)
    (h : off + bs.length ≤ f.length) :
    (writeBytesAt f off bs).length = f.length := by
  induction bs generalizing f off with
  | nil => rfl
  | cons b bs ih =>
    show (writeBytesAt (writeByte f off b) (off + 1) bs).length = _
    have hl : (writeByte f off b).length = f.length :=
      length_writeByte_of_lt f off b (by simp at h; omega)
    rw [ih (writeByte f off b) (off + 1) (by simp at h; omega), hl]

/-- Zero out `n` bytes starting at `off` (`fp.write(b'\0' * n)`). -/
def zeroBytes (f : List Nat) (off n : Nat) : List Nat :=
  writeBytesAt f off (List.replicate n 0)

/-- Zero out a list of `(offset, length)` byte ranges, in order. -/
def zeroRanges (f : List Nat) (rs : List (Nat × Nat)) : List Nat :=
  rs.foldl (fun g r => zeroBytes g r.1 r.2) f

theorem readByte_zeroBytes_outside (f : List Nat) (off n j : Nat)
    (h : j < off ∨ off + n ≤ j) :
    readByte (zeroBytes f off n) j = readByte f j := by
  unfold zeroBytes
  exact readByte_writeBytesAt_outside _ f off j (by simpa using h)

theorem readByte_zeroBytes_inside (f : List Nat) (off n j : Nat)
    (h1 : off ≤ j) (h2 : j < off + n) :
    readByte (zeroBytes f off n) j = 0 := by
  unfold zeroBytes
  rw [readByte_writeBytesAt_inside _ f off j h1 (by simpa using h2)]
  rw [List.getD_eq_getElem?_getD, List.getElem?_replicate]
  split <;> rfl

theorem readByte_zeroRanges_outside (rs : List (Nat × Nat)) (f : List Nat)
    (j : Nat) (h : ∀ r ∈ rs, j < r.1 ∨ r.1 + r.2 ≤ j) :
    readByte (zeroRanges f rs) j = readByte f j := by
  induction rs generalizing f with
  | nil => rfl
  | cons r rs ih =>
    show readByte (zeroRanges (zeroBytes f r.1 r.2) rs) j = _
    rw [ih (zeroBytes f r.1 r.2) fun s hs => h s (List.mem_cons_of_mem r hs)]
    exact readByte_zeroBytes_outside f r.1 r.2 j (h r (List.mem_cons_self r rs))

theorem readBytesAt_zeroRanges_disj (rs : List (Nat × Nat)) (f : List Nat)
    (off n : Nat) (h : ∀ r ∈ rs, off + n ≤ r.1 ∨ r.1 + r.2 ≤ off) :
    readBytesAt (zeroRanges f rs) off n = readBytesAt f off n := by
  unfold readBytesAt
  apply List.map_congr_left
  intro j hj
  simp only [List.mem_range] at hj
  apply readByte_zeroRanges_outside
  intro r hr
  rcases h r hr with h1 | h1
  · left; omega
  · right; omega

theorem length_zeroBytes_of_le (f : List Nat) (off n : Nat)
    (h : off + n ≤ f.length) : (zeroBytes f off n).length = f.length := by
  unfold zeroBytes
  exact length_writeBytesAt_of_le _ f off (by simpa using h)

theorem length_zeroRanges_of_le (rs : List (Nat × Nat)) (f : List Nat)
    (h : ∀ r ∈ rs, r.1 + r.2 ≤ f.length) :
    (zeroRanges f rs).length = f.length := by
  induction rs generalizing f with
  | nil => rfl
  | cons r rs ih =>
    show (zeroRanges (zeroBytes f r.1 r.2) rs).length = _
    have hl : (zeroBytes f r.1 r.2).length = f.length :=
      length_zeroBytes_of_le f r.1 r.2 (h r (List.mem_cons_self r rs))
    have hrest : ∀ s ∈ rs, s.1 + s.2 ≤ (zeroBytes f r.1 r.2).length := by
      rw [hl]
      exact fun s hs => h s (List.mem_cons_of_mem r hs)
    rw [ih (zeroBytes f r.1 r.2) hrest, hl]

/-! ### TIFF container model

The numeric layout parameters come from `t.tiff` in the source
(`offsetformat`, `offsetsize`, `tagnoformat`, `tagnosize`, `tagsize`);
for classic little-endian TIFF they are 4, 2 and 12. -/

structure TiffFmt where
  offsetsize : Nat
  tagnosize : Nat
  tagsize : Nat
deriving DecidableEq

/-- One TIFF tag as surfaced by the `tifffile` parser: its code, the
number of values (`tag.count`), the absolute position of its value
bytes (`tag.valueoffset`), and the number of bytes the value occupies
on disk (`tag.valuebytecount = count * size-of-dtype`). -/
structure TagEntry where
  code : Nat
  count : Nat
  valueoffset : Nat
  valuebytecount : Nat
deriving DecidableEq

/-- One page as surfaced by the `tifffile` parser: the absolute offset
of its IFD (tag table), its free-text description, its tags, and the
parallel StripOffsets / StripByteCounts values. -/
structure Page where
  offset : Nat
  description : List Char
  tags : List TagEntry
  stripOffsets : List Nat
  stripByteCounts : List Nat
deriving DecidableEq

/-- Read the tag count stored at the start of an IFD
(`unpack(tagnoformat, fp.read(tagnosize))`). -/
def readTagCount (fmt : TiffFmt) (f : List Nat) (off : Nat) : Nat :=
  decodeLE (readBytesAt f off fmt.tagnosize)

/-- Position of the next-IFD pointer of the page whose IFD starts at
`off`: past the tag count and `num_tags * tagsize` of tag definitions
(`fp.seek(num_tags * tagsize, 1); p['next_ifd_offset'] = fp.tell()`). -/
def nextIfdOffsetOf (fmt : TiffFmt) (f : List Nat) (off : Nat) : Nat :=
  off + fmt.tagnosize + readTagCount fmt f off * fmt.tagsize

/-- Value of the next-IFD pointer of the page at `off`
(`unpack(offsetformat, fp.read(offsetsize))`). -/
def readNextIfdValue (fmt : TiffFmt) (f : List Nat) (off : Nat) : Nat :=
  decodeLE (readBytesAt f (nextIfdOffsetOf fmt f off) fmt.offsetsize)

/-- The per-page record built by the chain-reading loop of
`delete_associated_image` (`{'this': ..., 'next_ifd_offset': ...,
'next_ifd_value': ...}`). -/
structure Ifd where
  this_ : Nat
  next_ifd_offset : Nat
  next_ifd_value : Nat
deriving DecidableEq

/-- Build one `Ifd` record from the file, as the loop over `ifds` does. -/
def mkIfd (fmt : TiffFmt) (f : List Nat) (off : Nat) : Ifd :=
  ⟨off, nextIfdOffsetOf fmt f off, readNextIfdValue fmt f off⟩

/-- Follow the next-IFD pointers through the file starting at `root`,
collecting the visited page offsets; a pointer value of 0 terminates
the chain.  `fuel` bounds the traversal. -/
def chainTraverse (fmt : TiffFmt) (f : List Nat) : Nat → Nat → List Nat
  | 0, _ => []
  | fuel + 1, off =>
    if off = 0 then []
    else off :: chainTraverse fmt f fuel (readNextIfdValue fmt f off)

/-- The offsets `offs` form a well-linked IFD chain in file `f`: every
offset is nonzero, each page's next-IFD pointer holds the next offset,
and the last page's pointer is 0. -/
def chainOk (fmt : TiffFmt) (f : List Nat) : List Nat → Prop
  | [] => True
  | o :: rest =>
    o ≠ 0 ∧
      readNextIfdValue fmt f o =
        (match rest with | [] => 0 | o' :: _ => o') ∧
      chainOk fmt f rest

instance (fmt : TiffFmt) (f : List Nat) : ∀ offs, Decidable (chainOk fmt f offs)
  | [] => by unfold chainOk; infer_instance
  | o :: rest => by
    unfold chainOk
    have := instDecidableChainOk fmt f rest
    infer_instance

/-- Errors raised by `delete_associated_image` (each is a Python
`Exception` in the source). -/
inductive SvsError
  | invalidImageType
  | duplicateAssociated
  | noPagePointsToThis
  | indexError
deriving DecidableEq

/-- Zero the pixel strips: `for (o, b) in zip(offsets, bytecounts):
fp.seek(o); fp.write(b'\0' * b)`. -/
def zeroStrips (f : List Nat) (page : Page) : List Nat :=
  zeroRanges f (page.stripOffsets.zip page.stripByteCounts)

/-- Zero each tag's value bytes: `fp.seek(tag.valueoffset);
fp.write(b'\0' * tag.count)`.  Note the source uses `tag.count` (the
number of values), not `tag.valuebytecount`; its own TODO comment
flags this. -/
def zeroTagValues (f : List Nat) (tags : List TagEntry) : List Nat :=
  zeroRanges f (tags.map fun t => (t.valueoffset, t.count))

/-- The part of `delete_associated_image` that runs once a single page
has been located (source lines 96-165): build the `ifds` records from
the file, find `pageifd` and `previfd`, zero the strips, and if
`keep_image_entry` is false also zero the tag values, zero the page
header, and patch the previous page's next-IFD pointer.  The returned
value is the mutated file contents. -/
def deleteLocatedFile (fmt : TiffFmt) (f : List Nat) (pages : List Page)
    (page : Page) (keep_image_entry : Bool) : Except SvsError (List Nat) :=
  let ifds := pages.map fun p => mkIfd fmt f p.offset
  match (ifds.filter fun i => i.this_ == page.offset).head? with
  | none => .error .indexError
  | some pageifd =>
    match (ifds.filter fun i => i.next_ifd_value == page.offset).head? with
    | none => .error .noPagePointsToThis
    | some previfd =>
      let f1 := zeroStrips f page
      if keep_image_entry then .ok f1
      else
        let f2 := zeroTagValues f1 page.tags
        let pagebytes := (pageifd.next_ifd_offset - pageifd.this_) + fmt.offsetsize
        let f3 := zeroBytes f2 pageifd.this_ pagebytes
        .ok (writeBytesAt f3 previfd.next_ifd_offset
          (encodeLE fmt.offsetsize pageifd.next_ifd_value))

/-- Bool test for `pat in s` on Python strings: `pat` occurs as a
contiguous substring of `s`. -/
def startsWithChars : List Char → List Char → Bool
  | _, [] => true
  | [], _ :: _ => false
  | a :: as, b :: bs => a == b && startsWithChars as bs

def containsSub : List Char → List Char → Bool
  | [], pat => pat.isEmpty
  | s@(_ :: rest), pat => startsWithChars s pat || containsSub rest pat

/-- The vendor-heuristic page selection of `delete_associated_image`
(source lines 75-86): classic Aperio files select by description
substring; GT450 files select the second-to-last (label) or last
(macro) page; anything else falls back to substring matching.  `none`
models a Python `IndexError` (empty page list, or a GT450 file with
too few pages for the negative index). -/
def heuristicFilter (pages : List Page) (image_type : List Char) :
    Option (List Page) :=
  match pages with
  | [] => none
  | first_page :: _ =>
    if containsSub first_page.description ("Aperio Image Library".data) then
      some (pages.filter fun p => containsSub p.description image_type)
    else if containsSub first_page.description
        ("Aperio Leica Biosystems GT450".data) then
      if image_type = "label".data then
        if pages.length < 2 then none
        else (pages.get? (pages.length - 2)).map fun p => [p]
      else (pages.get? (pages.length - 1)).map fun p => [p]
    else
      some (pages.filter fun p => containsSub p.description image_type)

/-- `delete_associated_image(slide_path, image_type, keep_image_entry)`:
validate the image type, select candidate pages with the vendor
heuristic, fail on duplicates, return without touching the file when
there is no match (`.ok none`), and otherwise redact the single
located page, returning the mutated file contents (`.ok (some f)`).
The pixel buffer the Python function returns (`page.asarray()`) is
decoded by the external `tifffile` library and is not modelled. -/
def delete_associated_image (fmt : TiffFmt) (f : List Nat)
    (pages : List Page) (image_type : List Char) (keep_image_entry : Bool) :
    Except SvsError (Option (List Nat)) :=
  if image_type ≠ "label".data ∧ image_type ≠ "macro".data then
    .error .invalidImageType
  else
    match heuristicFilter pages image_type with
    | none => .error .indexError
    | some filtered_pages =>
      if filtered_pages.length > 1 then .error .duplicateAssociated
      else
        match filtered_pages with
        | [] => .ok none
        | page :: _ =>
          (deleteLocatedFile fmt f pages page keep_image_entry).map some

/-! ### Chain lemmas -/

theorem chainOk_ne_zero (fmt : TiffFmt) (f : List Nat) :
    ∀ offs, chainOk fmt f offs → ∀ x ∈ offs, x ≠ 0 := by
  intro offs
  induction offs with
  | nil => intro _ x hx; cases hx
  | cons o rest ih =>
    intro h x hx
    obtain ⟨h1, _, h3⟩ := h
    rcases List.mem_cons.mp hx with h | h
    · subst h; exact h1
    · exact ih h3 x h

theorem chainOk_next (fmt : TiffFmt) (f : List Nat) :
    ∀ offs, chainOk fmt f offs → ∀ i, i < offs.length →
      readNextIfdValue fmt f (offs.getD i 0) = offs.getD (i + 1) 0 := by
  intro offs
  induction offs with
  | nil => intro _ i hi; simp at hi
  | cons o rest ih =>
    intro h i hi
    obtain ⟨_, h2, h3⟩ := h
    match i with
    | 0 =>
      cases rest with
      | nil => simpa using h2
      | cons o' rest' => simpa using h2
    | i + 1 =>
      have := ih h3 i (by simpa using hi)
      simpa using this

theorem chainOk_map_next (fmt : TiffFmt) (f : List Nat) :
    ∀ offs, chainOk fmt f offs → offs ≠ [] →
      offs.map (readNextIfdValue fmt f) = offs.tail ++ [0] := by
  intro offs
  induction offs with
  | nil => intro _ h; exact absurd rfl h
  | cons o rest ih =>
    intro h _
    obtain ⟨_, h2, h3⟩ := h
    cases rest with
    | nil => simpa using h2
    | cons o' rest' =>
      have hrec := ih h3 (by simp)
      simp only [List.map_cons, List.tail_cons] at hrec ⊢
      rw [h2, hrec]
      simp

theorem chainTraverse_of_pointwise (fmt : TiffFmt) (f : List Nat) :
    ∀ offs : List Nat,
      (∀ i, i < offs.length → offs.getD i 0 ≠ 0) →
      (∀ i, i < offs.length →
        readNextIfdValue fmt f (offs.getD i 0) = offs.getD (i + 1) 0) →
      chainTraverse fmt f (offs.length + 1) (offs.getD 0 0) = offs := by
  intro offs
  induction offs with
  | nil => intro _ _; rfl
  | cons o rest ih =>
    intro h0 hn
    have ho : o ≠ 0 := h0 0 (by simp)
    show chainTraverse fmt f (rest.length + 1 + 1) o = o :: rest
    rw [chainTraverse, if_neg ho]
    have hv : readNextIfdValue fmt f o = rest.getD 0 0 := by
      have := hn 0 (by simp)
      simpa using this
    rw [hv]
    congr 1
    apply ih
    · intro i hi
      have := h0 (i + 1) (by simpa using hi)
      simpa using this
    · intro i hi
      have := hn (i + 1) (by simpa using hi)
      simpa using this

/-- A filter by a key equal to the key of the `i`-th element returns
exactly that element, when the keys are distinct. -/
theorem filter_key_singleton {α : Type} (key : α → Nat) (c : Nat) :
    ∀ (l : List α) (i : Nat) (x : α), l[i]? = some x →
      (l.map key).Nodup → key x = c →
      l.filter (fun y => key y == c) = [x] := by
  intro l
  induction l with
  | nil => intro i x hx; simp at hx
  | cons a rest ih =>
    intro i x hx hnd hkey
    have hnd1 : key a ∉ rest.map key := by
      simp only [List.map_cons, List.nodup_cons] at hnd
      exact hnd.1
    have hnd2 : (rest.map key).Nodup := by
      simp only [List.map_cons, List.nodup_cons] at hnd
      exact hnd.2
    match i with
    | 0 =>
      have hax : a = x := by simpa using hx
      subst hax
      rw [List.filter_cons_of_pos (by simp [hkey])]
      have hrest : rest.filter (fun y => key y == c) = [] := by
        rw [List.filter_eq_nil_iff]
        intro b hb
        simp only [beq_iff_eq]
        intro hbc
        apply hnd1
        rw [hkey, ← hbc]
        exact List.mem_map_of_mem key hb
      rw [hrest]
    | i + 1 =>
      have hx' : rest[i]? = some x := by simpa using hx
      have hxmem : x ∈ rest := List.getElem?_mem hx'
      have hane : ¬(key a == c) = true := by
        simp only [beq_iff_eq]
        intro hac
        apply hnd1
        rw [hac, ← hkey]
        exact List.mem_map_of_mem key hxmem
      rw [List.filter_cons_of_neg (by simpa using hane)]
      exact ih i x hx' hnd2 hkey

theorem offsets_getD (pages : List Page) (i : Nat) (p : Page)
    (h : pages[i]? = some p) :
    (pages.map Page.offset).getD i 0 = p.offset := by
  simp [List.getD_eq_getElem?_getD, List.getElem?_map, h]

/-- Under a well-formed, duplicate-free chain, the `pageifd` and
`previfd` lookups of `delete_associated_image` resolve to the records
of the target page and of the page linked just before it. -/
theorem ifds_filters (fmt : TiffFmt) (f : List Nat) (pages : List Page)
    (k : Nat) (page prevPage : Page)
    (hk : pages[k]? = some page)
    (hprev : pages[k - 1]? = some prevPage)
    (hk1 : 1 ≤ k)
    (hchain : chainOk fmt f (pages.map Page.offset))
    (hnodup : (pages.map Page.offset).Nodup) :
    ((pages.map fun p => mkIfd fmt f p.offset).filter
        fun i => i.this_ == page.offset) = [mkIfd fmt f page.offset] ∧
    ((pages.map fun p => mkIfd fmt f p.offset).filter
        fun i => i.next_ifd_value == page.offset) =
      [mkIfd fmt f prevPage.offset] := by
  have hklen : k < pages.length := List.getElem?_eq_some_iff.mp hk |>.1
  have hmap_this :
      ((pages.map fun p => mkIfd fmt f p.offset).map Ifd.this_) =
        pages.map Page.offset := by
    simp [List.map_map, Function.comp, mkIfd]
  have hmap_next :
      ((pages.map fun p => mkIfd fmt f p.offset).map Ifd.next_ifd_value) =
        (pages.map Page.offset).map (readNextIfdValue fmt f) := by
    simp [List.map_map, Function.comp, mkIfd]
  constructor
  · apply filter_key_singleton Ifd.this_ page.offset _ k (mkIfd fmt f page.offset)
    · rw [List.getElem?_map, hk]; rfl
    · rw [hmap_this]; exact hnodup
    · rfl
  · apply filter_key_singleton Ifd.next_ifd_value page.offset _ (k - 1)
      (mkIfd fmt f prevPage.offset)
    · rw [List.getElem?_map, hprev]; rfl
    · rw [hmap_next]
      rw [chainOk_map_next fmt f _ hchain (by
        intro hemp
        rw [hemp] at hnodup
        have : pages.length = 0 := by
          simpa using congrArg List.length hemp
        omega)]
      have htl : (pages.map Page.offset).tail.Nodup := hnodup.tail
      have hzero : (0 : Nat) ∉ (pages.map Page.offset).tail := by
        intro hmem
        have h0 : (0 : Nat) ∈ pages.map Page.offset := List.mem_of_mem_tail hmem
        exact chainOk_ne_zero fmt f _ hchain 0 h0 rfl
      rw [List.nodup_append]
      refine ⟨htl, by simp, ?_⟩
      intro a ha hb
      have : a = 0 := by simpa using hb
      subst this
      exact hzero ha
    · show readNextIfdValue fmt f prevPage.offset = page.offset
      have h1 := chainOk_next fmt f _ hchain (k - 1) (by simp; omega)
      rw [offsets_getD pages (k - 1) prevPage hprev] at h1
      have hsucc : k - 1 + 1 = k := by omega
      rw [hsucc, offsets_getD pages k page hk] at h1
      exact h1

/-- With `keep_image_entry=false`, and a well-formed chain,
`delete_associated_image`'s in-place mutation amounts to: zero the
strips, zero the tag values, zero the page header, then patch the
previous page's next-IFD pointer with the target's next-IFD value. -/
theorem deleteLocatedFile_false_eq (fmt : TiffFmt) (f : List Nat)
    (pages : List Page) (k : Nat) (page prevPage : Page)
    (hk : pages[k]? = some page)
    (hprev : pages[k - 1]? = some prevPage)
    (hk1 : 1 ≤ k)
    (hchain : chainOk fmt f (pages.map Page.offset))
    (hnodup : (pages.map Page.offset).Nodup) :
    deleteLocatedFile fmt f pages page false =
      .ok (writeBytesAt
            (zeroBytes (zeroTagValues (zeroStrips f page) page.tags)
              page.offset
              ((nextIfdOffsetOf fmt f page.offset - page.offset) +
                fmt.offsetsize))
            (nextIfdOffsetOf fmt f prevPage.offset)
            (encodeLE fmt.offsetsize (readNextIfdValue fmt f page.offset))) := by
  obtain ⟨h1, h2⟩ := ifds_filters fmt f pages k page prevPage hk hprev hk1
    hchain hnodup
  simp only [deleteLocatedFile, h1, h2, List.head?_cons, Bool.false_eq_true,
    if_false]
  rfl

/-- With `keep_image_entry=true`, and a well-formed chain, the
mutation is exactly the strip zeroing. -/
theorem deleteLocatedFile_true_eq (fmt : TiffFmt) (f : List Nat)
    (pages : List Page) (k : Nat) (page prevPage : Page)
    (hk : pages[k]? = some page)
    (hprev : pages[k - 1]? = some prevPage)
    (hk1 : 1 ≤ k)
    (hchain : chainOk fmt f (pages.map Page.offset))
    (hnodup : (pages.map Page.offset).Nodup) :
    deleteLocatedFile fmt f pages page true = .ok (zeroStrips f page) := by
  obtain ⟨h1, h2⟩ := ifds_filters fmt f pages k page prevPage hk hprev hk1
    hchain hnodup
  simp only [deleteLocatedFile, h1, h2, List.head?_cons, if_true]

/-! ### Write ranges and read preservation -/

/-- The byte ranges written when redacting `page` with
`keep_image_entry=false`, before the final pointer patch: the pixel
strips, each tag's value bytes (`tag.count` bytes, as the source
writes), and the page header from the tag table through the next-IFD
pointer. -/
def targetWriteRanges (fmt : TiffFmt) (f : List Nat) (page : Page) :
    List (Nat × Nat) :=
  page.stripOffsets.zip page.stripByteCounts ++
    (page.tags.map fun t => (t.valueoffset, t.count)) ++
    [(page.offset,
      (nextIfdOffsetOf fmt f page.offset - page.offset) + fmt.offsetsize)]

theorem readBytesAt_zeroBytes_disj (f : List Nat) (woff wn off n : Nat)
    (h : off + n ≤ woff ∨ woff + wn ≤ off) :
    readBytesAt (zeroBytes f woff wn) off n = readBytesAt f off n := by
  unfold zeroBytes
  exact readBytesAt_writeBytesAt_disj _ f woff off n (by simpa using h)

/-- Reading a byte range disjoint from every write of the
`keep_image_entry=false` redaction yields the original bytes. -/
theorem readBytesAt_redact_false (fmt : TiffFmt) (f : List Nat) (page : Page)
    (prevOff off n : Nat)
    (h : ∀ r ∈ targetWriteRanges fmt f page ++
          [(nextIfdOffsetOf fmt f prevOff, fmt.offsetsize)],
        r.1 + r.2 ≤ off ∨ off + n ≤ r.1) :
    readBytesAt
      (writeBytesAt
        (zeroBytes (zeroTagValues (zeroStrips f page) page.tags) page.offset
          ((nextIfdOffsetOf fmt f page.offset - page.offset) + fmt.offsetsize))
        (nextIfdOffsetOf fmt f prevOff)
        (encodeLE fmt.offsetsize (readNextIfdValue fmt f page.offset)))
      off n = readBytesAt f off n := by
  have hpatch := h (nextIfdOffsetOf fmt f prevOff, fmt.offsetsize)
    (List.mem_append_right _ (List.mem_singleton_self _))
  have hhdr := h (page.offset,
      (nextIfdOffsetOf fmt f page.offset - page.offset) + fmt.offsetsize)
    (List.mem_append_left _
      (List.mem_append_right _ (List.mem_singleton_self _)))
  rw [readBytesAt_writeBytesAt_disj _ _ _ _ _
    (by rw [length_encodeLE]; simp only at hpatch; omega)]
  rw [readBytesAt_zeroBytes_disj _ _ _ _ _ (by simp only at hhdr; omega)]
  unfold zeroTagValues
  rw [readBytesAt_zeroRanges_disj _ _ _ _ ?htags]
  case htags =>
    intro r hr
    have hmem := h r (List.mem_append_left _
      (List.mem_append_left _ (List.mem_append_right _ hr)))
    omega
  unfold zeroStrips
  rw [readBytesAt_zeroRanges_disj _ _ _ _ ?hstrips]
  case hstrips =>
    intro r hr
    have hmem := h r (List.mem_append_left _
      (List.mem_append_left _ (List.mem_append_left _ hr)))
    omega

theorem readTagCount_redact_false (fmt : TiffFmt) (f : List Nat) (page : Page)
    (prevOff o : Nat)
    (h : ∀ r ∈ targetWriteRanges fmt f page ++
          [(nextIfdOffsetOf fmt f prevOff, fmt.offsetsize)],
        r.1 + r.2 ≤ o ∨ o + fmt.tagnosize ≤ r.1) :
    readTagCount fmt
      (writeBytesAt
        (zeroBytes (zeroTagValues (zeroStrips f page) page.tags) page.offset
          ((nextIfdOffsetOf fmt f page.offset - page.offset) + fmt.offsetsize))
        (nextIfdOffsetOf fmt f prevOff)
        (encodeLE fmt.offsetsize (readNextIfdValue fmt f page.offset)))
      o = readTagCount fmt f o := by
  unfold readTagCount
  rw [readBytesAt_redact_false fmt f page prevOff o fmt.tagnosize h]

theorem getD_take_append_drop (l : List Nat) (k i : Nat) (hk : k < l.length) :
    (l.take k ++ l.drop (k + 1)).getD i 0 =
      if i < k then l.getD i 0 else l.getD (i + 1) 0 := by
  have hlen : (l.take k).length = k := by
    rw [List.length_take]
    omega
  by_cases hik : i < k
  · rw [if_pos hik]
    rw [List.getD_eq_getElem?_getD, List.getElem?_append_left (by omega),
      List.getElem?_take_of_lt hik, List.getD_eq_getElem?_getD]
  · rw [if_neg hik]
    rw [List.getD_eq_getElem?_getD, List.getElem?_append_right (by omega),
      List.getElem?_drop, hlen, List.getD_eq_getElem?_getD]
    congr 2
    omega

theorem length_take_append_drop (l : List Nat) (k : Nat) (hk : k < l.length) :
    (l.take k ++ l.drop (k + 1)).length = l.length - 1 := by
  rw [List.length_append, List.length_take, List.length_drop]
  omega

/-- C1: for a container whose chain visits the pages in order, redacting
the uniquely located target page `pages[k]` with `keep_image_entry=false`
rewrites the preceding page's next-IFD pointer to the target's
`next_ifd_value`; afterwards the chain reachable from the root visits
exactly the other `N - 1` pages, each at its unchanged original offset. -/
theorem redact_false_unlinks_page (fmt : TiffFmt) (f : List Nat)
    (pages : List Page) (k : Nat) (page prevPage p0 : Page)
    (h0 : pages[0]? = some p0)
    (hk : pages[k]? = some page)
    (hprev : pages[k - 1]? = some prevPage)
    (hk1 : 1 ≤ k)
    (hchain : chainOk fmt f (pages.map Page.offset))
    (hnodup : (pages.map Page.offset).Nodup)
    (hdisj : ∀ i, i < pages.length → i ≠ k →
      ∀ r ∈ targetWriteRanges fmt f page ++
          [(nextIfdOffsetOf fmt f prevPage.offset, fmt.offsetsize)],
        (r.1 + r.2 ≤ (pages.map Page.offset).getD i 0 ∨
          (pages.map Page.offset).getD i 0 + fmt.tagnosize ≤ r.1) ∧
        (i ≠ k - 1 →
          (r.1 + r.2 ≤
              nextIfdOffsetOf fmt f ((pages.map Page.offset).getD i 0) ∨
            nextIfdOffsetOf fmt f ((pages.map Page.offset).getD i 0) +
              fmt.offsetsize ≤ r.1)))
    (f' : List Nat)
    (hrun : deleteLocatedFile fmt f pages page false = Except.ok f') :
    readNextIfdValue fmt f' prevPage.offset =
        readNextIfdValue fmt f page.offset ∧
      chainTraverse fmt f' pages.length p0.offset =
        (pages.map Page.offset).take k ++
          (pages.map Page.offset).drop (k + 1) ∧
      ((pages.map Page.offset).take k ++
        (pages.map Page.offset).drop (k + 1)).length = pages.length - 1 := by
  have hN : k < pages.length := (List.getElem?_eq_some_iff.mp hk).1
  have hlen_offs : (pages.map Page.offset).length = pages.length := by simp
  have hk_offs : k < (pages.map Page.offset).length := by omega
  rw [deleteLocatedFile_false_eq fmt f pages k page prevPage hk hprev hk1
    hchain hnodup] at hrun
  injection hrun with hEf
  have hTagPres : ∀ j, j < pages.length → j ≠ k →
      readTagCount fmt f' ((pages.map Page.offset).getD j 0) =
        readTagCount fmt f ((pages.map Page.offset).getD j 0) := by
    intro j hj hjk
    rw [← hEf]
    apply readTagCount_redact_false
    intro r hr
    exact (hdisj j hj hjk r hr).1
  have hOffPres : ∀ j, j < pages.length → j ≠ k →
      nextIfdOffsetOf fmt f' ((pages.map Page.offset).getD j 0) =
        nextIfdOffsetOf fmt f ((pages.map Page.offset).getD j 0) := by
    intro j hj hjk
    unfold nextIfdOffsetOf
    rw [hTagPres j hj hjk]
  have hPtrPres : ∀ j, j < pages.length → j ≠ k → j ≠ k - 1 →
      readNextIfdValue fmt f' ((pages.map Page.offset).getD j 0) =
        readNextIfdValue fmt f ((pages.map Page.offset).getD j 0) := by
    intro j hj hjk hjk1
    unfold readNextIfdValue
    rw [hOffPres j hj hjk]
    rw [← hEf]
    rw [readBytesAt_redact_false fmt f page prevPage.offset _ _ ?hd]
    case hd =>
      intro r hr
      exact (hdisj j hj hjk r hr).2 hjk1
  have hv_lt : readNextIfdValue fmt f page.offset < 256 ^ fmt.offsetsize := by
    unfold readNextIfdValue
    have h := decodeLE_lt
      (readBytesAt f (nextIfdOffsetOf fmt f page.offset) fmt.offsetsize)
    rwa [readBytesAt_length] at h
  have hPrevOffEq : nextIfdOffsetOf fmt f' prevPage.offset =
      nextIfdOffsetOf fmt f prevPage.offset := by
    have hpg : (pages.map Page.offset).getD (k - 1) 0 = prevPage.offset :=
      offsets_getD pages (k - 1) prevPage hprev
    have h := hOffPres (k - 1) (by omega) (by omega)
    rwa [hpg] at h
  have hread : readBytesAt f'
      (nextIfdOffsetOf fmt f prevPage.offset) fmt.offsetsize =
      encodeLE fmt.offsetsize (readNextIfdValue fmt f page.offset) := by
    rw [← hEf]
    have h := readBytesAt_writeBytesAt_self
      (encodeLE fmt.offsetsize (readNextIfdValue fmt f page.offset))
      (zeroBytes (zeroTagValues (zeroStrips f page) page.tags) page.offset
        ((nextIfdOffsetOf fmt f page.offset - page.offset) + fmt.offsetsize))
      (nextIfdOffsetOf fmt f prevPage.offset)
    rwa [length_encodeLE] at h
  have hPatched : readNextIfdValue fmt f' prevPage.offset =
      readNextIfdValue fmt f page.offset := by
    rw [readNextIfdValue, hPrevOffEq, hread, decodeLE_encodeLE,
      Nat.mod_eq_of_lt hv_lt]
  have hnz : ∀ j, j < (pages.map Page.offset).length →
      (pages.map Page.offset).getD j 0 ≠ 0 := by
    intro j hj
    rw [List.getD_eq_getElem (pages.map Page.offset) 0 hj]
    exact chainOk_ne_zero fmt f _ hchain _ (List.getElem_mem hj)
  have hlen' : ((pages.map Page.offset).take k ++
      (pages.map Page.offset).drop (k + 1)).length = pages.length - 1 := by
    rw [length_take_append_drop _ k hk_offs]
    omega
  have h0' : ∀ i, i < ((pages.map Page.offset).take k ++
      (pages.map Page.offset).drop (k + 1)).length →
      ((pages.map Page.offset).take k ++
        (pages.map Page.offset).drop (k + 1)).getD i 0 ≠ 0 := by
    intro i hi
    rw [hlen'] at hi
    rw [getD_take_append_drop _ k i hk_offs]
    by_cases hik : i < k
    · rw [if_pos hik]
      exact hnz i (by omega)
    · rw [if_neg hik]
      exact hnz (i + 1) (by omega)
  have hn' : ∀ i, i < ((pages.map Page.offset).take k ++
      (pages.map Page.offset).drop (k + 1)).length →
      readNextIfdValue fmt f'
        (((pages.map Page.offset).take k ++
          (pages.map Page.offset).drop (k + 1)).getD i 0) =
        ((pages.map Page.offset).take k ++
          (pages.map Page.offset).drop (k + 1)).getD (i + 1) 0 := by
    intro i hi
    rw [hlen'] at hi
    by_cases hik : i < k
    · by_cases hik1 : i = k - 1
      · subst hik1
        rw [getD_take_append_drop _ k _ hk_offs, if_pos hik]
        rw [offsets_getD pages (k - 1) prevPage hprev]
        rw [hPatched]
        have hpg : (pages.map Page.offset).getD k 0 = page.offset :=
          offsets_getD pages k page hk
        have hcn := chainOk_next fmt f _ hchain k (by omega)
        rw [hpg] at hcn
        rw [hcn]
        rw [getD_take_append_drop _ k _ hk_offs, if_neg (by omega)]
        congr 1
        omega
      · rw [getD_take_append_drop _ k i hk_offs, if_pos hik,
          getD_take_append_drop _ k (i + 1) hk_offs, if_pos (by omega)]
        rw [hPtrPres i (by omega) (by omega) (by omega)]
        exact chainOk_next fmt f _ hchain i (by omega)
    · rw [getD_take_append_drop _ k i hk_offs, if_neg hik,
        getD_take_append_drop _ k (i + 1) hk_offs, if_neg (by omega)]
      rw [hPtrPres (i + 1) (by omega) (by omega) (by omega)]
      exact chainOk_next fmt f _ hchain (i + 1) (by omega)
  have htrav := chainTraverse_of_pointwise fmt f' _ h0' hn'
  have hfuel : ((pages.map Page.offset).take k ++
      (pages.map Page.offset).drop (k + 1)).length + 1 = pages.length := by
    omega
  have hhead : ((pages.map Page.offset).take k ++
      (pages.map Page.offset).drop (k + 1)).getD 0 0 = p0.offset := by
    rw [getD_take_append_drop _ k 0 hk_offs, if_pos (by omega)]
    exact offsets_getD pages 0 p0 h0
  rw [hfuel, hhead] at htrav
  exact ⟨hPatched, htrav, hlen'⟩

/-! ### A small concrete container used to exercise the theorems

Three pages: page 0 at offset 10 (one tag), page 1 at offset 40 (the
target: one out-of-line tag of 2 LONG values at offset 80, one pixel
strip at offset 70), page 2 at offset 60 (no tags).  The chain is
10 → 40 → 60 → 0. -/

def cfmt : TiffFmt := ⟨4, 2, 12⟩

def cpage0 : Page := ⟨10, "Aperio Image Library".data, [], [], []⟩

def cpage1 : Page := ⟨40, "label".data, [⟨254, 2, 80, 8⟩], [70], [4]⟩

def cpage2 : Page := ⟨60, [], [], [], []⟩

def cpages : List Page := [cpage0, cpage1, cpage2]

def cfile : List Nat :=
  List.replicate 10 0 ++ [1, 0] ++ List.replicate 12 0 ++ [40, 0, 0, 0] ++
    List.replicate 12 0 ++ [1, 0] ++ List.replicate 12 0 ++ [60, 0, 0, 0] ++
    List.replicate 12 0 ++ [9, 9, 9, 9] ++ List.replicate 6 0 ++
    List.replicate 8 7

/-- The expected bytes after redacting page 1 with
`keep_image_entry=false`: strip zeroed, first 2 bytes of the tag value
zeroed, header bytes 40–57 zeroed, pointer at 24 patched to 60. -/
def cfileAfter : List Nat :=
  List.replicate 10 0 ++ [1, 0] ++ List.replicate 12 0 ++ [60, 0, 0, 0] ++
    List.replicate 54 0 ++ List.replicate 6 7

instance decEqExcept {ε α : Type} [DecidableEq ε] [DecidableEq α] :
    DecidableEq (Except ε α) := fun a b =>
  match a, b with
  | .error e, .error e' =>
    if h : e = e' then isTrue (by rw [h])
    else isFalse (fun hc => h (by cases hc; rfl))
  | .error _, .ok _ => isFalse (fun hc => Except.noConfusion hc)
  | .ok _, .error _ => isFalse (fun hc => Except.noConfusion hc)
  | .ok v, .ok v' =>
    if h : v = v' then isTrue (by rw [h])
    else isFalse (fun hc => h (by cases hc; rfl))

set_option maxRecDepth 100000 in
/-- Closed instantiation of `redact_false_unlinks_page` on the
concrete 3-page container. -/
theorem redact_false_unlinks_page_witness :
    readNextIfdValue cfmt cfileAfter cpage0.offset =
        readNextIfdValue cfmt cfile cpage1.offset ∧
      chainTraverse cfmt cfileAfter cpages.length cpage0.offset =
        (cpages.map Page.offset).take 1 ++
          (cpages.map Page.offset).drop 2 ∧
      ((cpages.map Page.offset).take 1 ++
        (cpages.map Page.offset).drop 2).length = cpages.length - 1 :=
  redact_false_unlinks_page cfmt cfile cpages 1 cpage1 cpage0 cpage0
    (by decide) (by decide) (by decide) (by decide) (by decide) (by decide)
    (by decide) cfileAfter (by decide)

theorem readByte_zeroRanges_inside (rs : List (Nat × Nat)) (f : List Nat)
    (j : Nat) (h : ∃ r ∈ rs, r.1 ≤ j ∧ j < r.1 + r.2) :
    readByte (zeroRanges f rs) j = 0 := by
  induction rs generalizing f with
  | nil => obtain ⟨r, hr, _⟩ := h; cases hr
  | cons r rest ih =>
    show readByte (zeroRanges (zeroBytes f r.1 r.2) rest) j = 0
    by_cases hrest : ∃ s ∈ rest, s.1 ≤ j ∧ j < s.1 + s.2
    · exact ih (zeroBytes f r.1 r.2) hrest
    · have hout : ∀ s ∈ rest, j < s.1 ∨ s.1 + s.2 ≤ j := by
        intro s hs
        by_contra hc
        push_neg at hc
        exact hrest ⟨s, hs, by omega⟩
      rw [readByte_zeroRanges_outside rest _ j hout]
      obtain ⟨r0, hr0, hin⟩ := h
      rcases List.mem_cons.mp hr0 with he | he
      · subst he
        exact readByte_zeroBytes_inside f r0.1 r0.2 j hin.1 hin.2
      · exact absurd ⟨r0, he, hin⟩ hrest

set_option maxRecDepth 100000 in
/-- C4 counterexample: in the concrete container the byte at the
target page's `next_ifd_offset` (position 54, holding 60 before the
call) is zeroed by the `keep_image_entry=false` redaction, so the
header-zeroing write does cover bytes at `next_ifd_offset`. -/
theorem header_zero_covers_pointer_counterexample :
    deleteLocatedFile cfmt cfile cpages cpage1 false = Except.ok cfileAfter ∧
      nextIfdOffsetOf cfmt cfile cpage1.offset = 54 ∧
      readByte cfile 54 = 60 ∧
      readByte cfileAfter 54 = 0 := by decide

/-- C4 (amended): with `keep_image_entry=false` the header zeroing
covers the contiguous range from the page's tag-table offset through
and including its next-IFD pointer field, i.e. up to
`next_ifd_offset + offsetsize`; every byte of that range is zero
afterwards (provided the final patch write lands outside it). -/
theorem redact_false_zeroes_header_through_pointer (fmt : TiffFmt)
    (f : List Nat) (pages : List Page) (k : Nat) (page prevPage : Page)
    (hk : pages[k]? = some page)
    (hprev : pages[k - 1]? = some prevPage)
    (hk1 : 1 ≤ k)
    (hchain : chainOk fmt f (pages.map Page.offset))
    (hnodup : (pages.map Page.offset).Nodup)
    (hpatchdisj :
      nextIfdOffsetOf fmt f page.offset + fmt.offsetsize ≤
          nextIfdOffsetOf fmt f prevPage.offset ∨
        nextIfdOffsetOf fmt f prevPage.offset + fmt.offsetsize ≤ page.offset)
    (f' : List Nat)
    (hrun : deleteLocatedFile fmt f pages page false = Except.ok f') :
    ∀ j, page.offset ≤ j →
      j < nextIfdOffsetOf fmt f page.offset + fmt.offsetsize →
      readByte f' j = 0 := by
  intro j hj1 hj2
  rw [deleteLocatedFile_false_eq fmt f pages k page prevPage hk hprev hk1
    hchain hnodup] at hrun
  injection hrun with hEf
  rw [← hEf]
  have hno : page.offset ≤ nextIfdOffsetOf fmt f page.offset := by
    unfold nextIfdOffsetOf
    omega
  rw [readByte_writeBytesAt_outside _ _ _ _
    (by rw [length_encodeLE]; omega)]
  exact readByte_zeroBytes_inside _ _ _ j hj1 (by omega)

set_option maxRecDepth 100000 in
/-- Closed instantiation of `redact_false_zeroes_header_through_pointer`
at position 54, the target's pointer field, in the concrete container. -/
theorem redact_false_zeroes_header_through_pointer_witness :
    readByte cfileAfter 54 = 0 :=
  redact_false_zeroes_header_through_pointer cfmt cfile cpages 1 cpage1
    cpage0 (by decide) (by decide) (by decide) (by decide) (by decide)
    (by decide) cfileAfter (by decide) 54 (by decide) (by decide)

set_option maxRecDepth 100000 in
/-- C3: the tag-value zeroing writes `tag.count` bytes, not the tag's
recorded on-disk byte length (`tag.valuebytecount`).  In the concrete
container the target page's only tag has `count = 2` and
`valuebytecount = 8` at value offset 80; after the redaction bytes 80
and 81 are zero but bytes 82–87, still inside the value's allocated
byte range, keep their original value 7. -/
theorem tag_zeroing_uses_count_not_bytecount :
    cpage1.tags = [⟨254, 2, 80, 8⟩] ∧
      deleteLocatedFile cfmt cfile cpages cpage1 false =
        Except.ok cfileAfter ∧
      readByte cfileAfter 80 = 0 ∧ readByte cfileAfter 81 = 0 ∧
      readByte cfileAfter 82 = 7 ∧ readByte cfileAfter 87 = 7 := by decide

/-- C5: with `keep_image_entry=true`, the redaction only zeroes the
pixel strip ranges: the mutation is exactly the strip zeroing, the
chain still visits all `N` pages at their original offsets, the strip
bytes are zero, and every byte outside the strip ranges (tag tables,
the preceding page's next-IFD pointer, everything else) is unchanged. -/
theorem redact_true_only_strips (fmt : TiffFmt) (f : List Nat)
    (pages : List Page) (k : Nat) (page prevPage p0 : Page)
    (h0 : pages[0]? = some p0)
    (hk : pages[k]? = some page)
    (hprev : pages[k - 1]? = some prevPage)
    (hk1 : 1 ≤ k)
    (hchain : chainOk fmt f (pages.map Page.offset))
    (hnodup : (pages.map Page.offset).Nodup)
    (hdisj : ∀ i, i < pages.length →
      ∀ r ∈ page.stripOffsets.zip page.stripByteCounts,
        (r.1 + r.2 ≤ (pages.map Page.offset).getD i 0 ∨
          (pages.map Page.offset).getD i 0 + fmt.tagnosize ≤ r.1) ∧
        (r.1 + r.2 ≤
            nextIfdOffsetOf fmt f ((pages.map Page.offset).getD i 0) ∨
          nextIfdOffsetOf fmt f ((pages.map Page.offset).getD i 0) +
            fmt.offsetsize ≤ r.1))
    (f' : List Nat)
    (hrun : deleteLocatedFile fmt f pages page true = Except.ok f') :
    f' = zeroStrips f page ∧
      chainTraverse fmt f' (pages.length + 1) p0.offset =
        pages.map Page.offset ∧
      (∀ r ∈ page.stripOffsets.zip page.stripByteCounts,
        ∀ j, r.1 ≤ j → j < r.1 + r.2 → readByte f' j = 0) ∧
      (∀ j, (∀ r ∈ page.stripOffsets.zip page.stripByteCounts,
          j < r.1 ∨ r.1 + r.2 ≤ j) →
        readByte f' j = readByte f j) := by
  rw [deleteLocatedFile_true_eq fmt f pages k page prevPage hk hprev hk1
    hchain hnodup] at hrun
  injection hrun with hEf
  have hN : k < pages.length := (List.getElem?_eq_some_iff.mp hk).1
  have hlen_offs : (pages.map Page.offset).length = pages.length := by simp
  have hTagPres : ∀ j, j < pages.length →
      readTagCount fmt f' ((pages.map Page.offset).getD j 0) =
        readTagCount fmt f ((pages.map Page.offset).getD j 0) := by
    intro j hj
    rw [← hEf]
    unfold readTagCount zeroStrips
    rw [readBytesAt_zeroRanges_disj _ _ _ _ ?hd]
    case hd =>
      intro r hr
      have hm := (hdisj j hj r hr).1
      omega
  have hPtrPres : ∀ j, j < pages.length →
      readNextIfdValue fmt f' ((pages.map Page.offset).getD j 0) =
        readNextIfdValue fmt f ((pages.map Page.offset).getD j 0) := by
    intro j hj
    unfold readNextIfdValue nextIfdOffsetOf
    rw [hTagPres j hj]
    rw [← hEf]
    unfold zeroStrips
    rw [readBytesAt_zeroRanges_disj _ _ _ _ ?hd]
    case hd =>
      intro r hr
      have hm := (hdisj j hj r hr).2
      unfold nextIfdOffsetOf at hm
      omega
  have hnz : ∀ j, j < (pages.map Page.offset).length →
      (pages.map Page.offset).getD j 0 ≠ 0 := by
    intro j hj
    rw [List.getD_eq_getElem (pages.map Page.offset) 0 hj]
    exact chainOk_ne_zero fmt f _ hchain _ (List.getElem_mem hj)
  have hn' : ∀ i, i < (pages.map Page.offset).length →
      readNextIfdValue fmt f' ((pages.map Page.offset).getD i 0) =
        (pages.map Page.offset).getD (i + 1) 0 := by
    intro i hi
    rw [hPtrPres i (by omega)]
    exact chainOk_next fmt f _ hchain i hi
  have htrav := chainTraverse_of_pointwise fmt f' (pages.map Page.offset)
    (fun i hi => hnz i hi) hn'
  have hhead : (pages.map Page.offset).getD 0 0 = p0.offset :=
    offsets_getD pages 0 p0 h0
  rw [hhead, hlen_offs] at htrav
  refine ⟨hEf.symm, htrav, ?_, ?_⟩
  · intro r hr j hj1 hj2
    rw [← hEf]
    unfold zeroStrips
    exact readByte_zeroRanges_inside _ f j ⟨r, hr, hj1, hj2⟩
  · intro j hout
    rw [← hEf]
    unfold zeroStrips
    exact readByte_zeroRanges_outside _ f j hout

/-- The expected bytes after redacting page 1 with
`keep_image_entry=true`: only the strip at 70–73 is zeroed. -/
def cfileAfterKeep : List Nat :=
  List.replicate 10 0 ++ [1, 0] ++ List.replicate 12 0 ++ [40, 0, 0, 0] ++
    List.replicate 12 0 ++ [1, 0] ++ List.replicate 12 0 ++ [60, 0, 0, 0] ++
    List.replicate 12 0 ++ [0, 0, 0, 0] ++ List.replicate 6 0 ++
    List.replicate 8 7

set_option maxRecDepth 100000 in
/-- Closed instantiation of `redact_true_only_strips` on the concrete
3-page container: all three pages remain chained, the strip is zero,
and the tag value byte at 80 is untouched. -/
theorem redact_true_only_strips_witness :
    chainTraverse cfmt cfileAfterKeep (cpages.length + 1) cpage0.offset =
        cpages.map Page.offset ∧
      readByte cfileAfterKeep 70 = 0 ∧
      readByte cfileAfterKeep 80 = readByte cfile 80 := by
  have h := redact_true_only_strips cfmt cfile cpages 1 cpage1 cpage0 cpage0
    (by decide) (by decide) (by decide) (by decide) (by decide) (by decide)
    (by decide) cfileAfterKeep (by decide)
  exact ⟨h.2.1, h.2.2.1 (70, 4) (by decide) 70 (by decide) (by decide),
    h.2.2.2 80 (by decide)⟩

/-- C8: for either value of `keep_image_entry`, when every byte range
the redaction writes lies within the file, the redacted file has
exactly the original length: all zeroing is in place and nothing grows
or shrinks. -/
theorem redact_preserves_file_length (fmt : TiffFmt) (f : List Nat)
    (pages : List Page) (k : Nat) (page prevPage : Page)
    (keep_image_entry : Bool)
    (hk : pages[k]? = some page)
    (hprev : pages[k - 1]? = some prevPage)
    (hk1 : 1 ≤ k)
    (hchain : chainOk fmt f (pages.map Page.offset))
    (hnodup : (pages.map Page.offset).Nodup)
    (hbounds : ∀ r ∈ targetWriteRanges fmt f page ++
        [(nextIfdOffsetOf fmt f prevPage.offset, fmt.offsetsize)],
      r.1 + r.2 ≤ f.length)
    (f' : List Nat)
    (hrun : deleteLocatedFile fmt f pages page keep_image_entry =
      Except.ok f') :
    f'.length = f.length := by
  have hstrips : ∀ r ∈ page.stripOffsets.zip page.stripByteCounts,
      r.1 + r.2 ≤ f.length := by
    intro r hr
    exact hbounds r (List.mem_append_left _
      (List.mem_append_left _ (List.mem_append_left _ hr)))
  have l1 : (zeroStrips f page).length = f.length := by
    unfold zeroStrips
    exact length_zeroRanges_of_le _ f hstrips
  cases keep_image_entry with
  | true =>
    rw [deleteLocatedFile_true_eq fmt f pages k page prevPage hk hprev hk1
      hchain hnodup] at hrun
    injection hrun with hEf
    rw [← hEf, l1]
  | false =>
    rw [deleteLocatedFile_false_eq fmt f pages k page prevPage hk hprev hk1
      hchain hnodup] at hrun
    injection hrun with hEf
    have l2 : (zeroTagValues (zeroStrips f page) page.tags).length =
        f.length := by
      unfold zeroTagValues
      rw [length_zeroRanges_of_le _ _ ?hb, l1]
      case hb =>
        intro r hr
        rw [l1]
        exact hbounds r (List.mem_append_left _
          (List.mem_append_left _ (List.mem_append_right _ hr)))
    have l3 : (zeroBytes (zeroTagValues (zeroStrips f page) page.tags)
        page.offset
        ((nextIfdOffsetOf fmt f page.offset - page.offset) +
          fmt.offsetsize)).length = f.length := by
      rw [length_zeroBytes_of_le _ _ _ ?hb, l2]
      case hb =>
        rw [l2]
        have hm := hbounds (page.offset,
            (nextIfdOffsetOf fmt f page.offset - page.offset) +
              fmt.offsetsize)
          (List.mem_append_left _
            (List.mem_append_right _ (List.mem_singleton_self _)))
        exact hm
    rw [← hEf]
    rw [length_writeBytesAt_of_le _ _ _ ?hb, l3]
    case hb =>
      rw [length_encodeLE, l3]
      have hm := hbounds (nextIfdOffsetOf fmt f prevPage.offset,
          fmt.offsetsize)
        (List.mem_append_right _ (List.mem_singleton_self _))
      exact hm

set_option maxRecDepth 100000 in
/-- Closed instantiation of `redact_preserves_file_length` on the
concrete container with `keep_image_entry=false`. -/
theorem redact_preserves_file_length_witness :
    cfileAfter.length = cfile.length :=
  redact_preserves_file_length cfmt cfile cpages 1 cpage1 cpage0 false
    (by decide) (by decide) (by decide) (by decide) (by decide) (by decide)
    cfileAfter (by decide)

/-- The located-page redaction never raises the duplicate error: that
error is raised only by the locator stage. -/
theorem deleteLocatedFile_result (fmt : TiffFmt) (f : List Nat)
    (pages : List Page) (page : Page) (keep : Bool) :
    deleteLocatedFile fmt f pages page keep = .error .indexError ∨
      deleteLocatedFile fmt f pages page keep =
        .error .noPagePointsToThis ∨
      ∃ g, deleteLocatedFile fmt f pages page keep = .ok g := by
  unfold deleteLocatedFile
  cases h1 : ((pages.map fun p => mkIfd fmt f p.offset).filter
      fun i => i.this_ == page.offset).head? with
  | none => left; simp [h1]
  | some pageifd =>
    cases h2 : ((pages.map fun p => mkIfd fmt f p.offset).filter
        fun i => i.next_ifd_value == page.offset).head? with
    | none => right; left; simp [h1, h2]
    | some previfd =>
      right; right
      cases keep
      · exact ⟨writeBytesAt
          (zeroBytes (zeroTagValues (zeroStrips f page) page.tags)
            pageifd.this_
            (pageifd.next_ifd_offset - pageifd.this_ + fmt.offsetsize))
          previfd.next_ifd_offset
          (encodeLE fmt.offsetsize pageifd.next_ifd_value),
          by simp [h1, h2]⟩
      · exact ⟨zeroStrips f page, by simp [h1, h2]⟩

/-- C7: for a valid image type, `delete_associated_image` fails with
the duplicate-associated-image error exactly when the vendor heuristic
selects more than one page; when it selects none, the call returns
successfully without locating a page (`.ok none`). -/
theorem locate_duplicate_iff (fmt : TiffFmt) (f : List Nat)
    (pages : List Page) (image_type : List Char) (keep : Bool)
    (hty : image_type = "label".data ∨ image_type = "macro".data)
    (l : List Page) (hheu : heuristicFilter pages image_type = some l) :
    (delete_associated_image fmt f pages image_type keep =
        Except.error SvsError.duplicateAssociated ↔ 1 < l.length) ∧
      (l = [] → delete_associated_image fmt f pages image_type keep =
        Except.ok none) := by
  have hvalid : ¬(image_type ≠ "label".data ∧ image_type ≠ "macro".data) := by
    rcases hty with h | h <;> simp [h]
  simp only [delete_associated_image, if_neg hvalid, hheu]
  cases l with
  | nil =>
    refine ⟨⟨fun heq => ?_, fun hlen => ?_⟩, fun _ => ?_⟩
    · rw [if_neg (by simp)] at heq
      simp at heq
    · simp at hlen
    · rw [if_neg (by simp)]
  | cons p tl =>
    by_cases hlen : 1 < (p :: tl).length
    · rw [if_pos hlen]
      exact ⟨⟨fun _ => hlen, fun _ => rfl⟩, fun hnil => by cases hnil⟩
    · rw [if_neg hlen]
      refine ⟨⟨fun heq => ?_, fun h2 => absurd h2 hlen⟩,
        fun hnil => by cases hnil⟩
      have heq2 : Except.map some (deleteLocatedFile fmt f pages p keep) =
          Except.error SvsError.duplicateAssociated := heq
      rcases deleteLocatedFile_result fmt f pages p keep with h | h | ⟨g, h⟩ <;>
        rw [h] at heq2 <;> simp [Except.map] at heq2

/-- Closed instantiation of `locate_duplicate_iff`: two distinct pages
both contain the substring `label` in their description under the
classic-vendor heuristic, so locating `label` fails with the
duplicate-associated-image error. -/
theorem locate_duplicate_iff_witness :
    delete_associated_image cfmt cfile
      [cpage0, cpage1, ⟨60, "second label".data, [], [], []⟩]
      ("label".data) false = Except.error SvsError.duplicateAssociated :=
  ((locate_duplicate_iff cfmt cfile
      [cpage0, cpage1, ⟨60, "second label".data, [], [], []⟩]
      ("label".data) false (by decide)
      [cpage1, ⟨60, "second label".data, [], [], []⟩]
      (by decide)).1).mpr (by decide)

/-! ### Description whitelist filtering

Python strings are modelled as `List Char`; `str.split(sep)` for a
one-character separator is `splitOnChar`, `sep.join` is `joinChar`,
and `str.strip()` is `stripChars`. -/

/-- Split on every occurrence of `c`, as Python `s.split(c)` does:
`splitOnChar c []` is `[[]]`, and separators at the ends produce empty
segments. -/
def splitOnChar (c : Char) : List Char → List (List Char)
  | [] => [[]]
  | x :: xs =>
    if x = c then [] :: splitOnChar c xs
    else
      match splitOnChar c xs with
      | [] => [[x]]
      | y :: ys => (x :: y) :: ys

/-- Join with a single-character separator, as Python `c.join(xs)`. -/
def joinChar (c : Char) : List (List Char) → List Char
  | [] => []
  | [x] => x
  | x :: y :: rest => x ++ c :: joinChar c (y :: rest)

/-- Python `str.strip()`: drop whitespace from both ends. -/
def stripChars (l : List Char) : List Char :=
  ((l.dropWhile Char.isWhitespace).reverse.dropWhile Char.isWhitespace).reverse

/-- The compiled-in allow-list of description keys
(`DESCRIPTION_KEY_WHITELIST` in the source; `ScanScope ID` is
intentionally absent). -/
def DESCRIPTION_KEY_WHITELIST : List (List Char) :=
  ["Date".data, "Time".data, "Time Zone".data,
   "AppMag".data, "MPP".data, "Left".data, "Top".data, "Rack".data,
   "Slide".data,
   "Exposure Scale".data, "Exposure Time".data, "Filtered".data,
   "Focus Offset".data, "Gamma".data, "StripeWidth".data,
   "ScannerType".data, "SessionMode".data,
   "CalibrationAverageBlue".data, "CalibrationAverageGreen".data,
   "CalibrationAverageRed".data, "Scan Warning".data]

/-- The loop of `filter_description_whitelist` over the segments after
the first: each must split on `=` into exactly two parts (the `assert
len(entries) == 2`, modelled as `none`), and is kept, rebuilt as
`key=value`, exactly when its stripped key is in the allow-list. -/
def filterSegs : List (List Char) → Option (List (List Char))
  | [] => some []
  | seg :: rest =>
    match splitOnChar '=' seg with
    | [k, v] =>
      match filterSegs rest with
      | none => none
      | some tl =>
        if DESCRIPTION_KEY_WHITELIST.contains (stripChars k) then
          some ((k ++ '=' :: v) :: tl)
        else some tl
    | _ => none

/-- `filter_description_whitelist(description)`: split on `|`, keep
the first segment verbatim, filter the rest against the allow-list,
and rejoin with `|`.  `none` models the Python `AssertionError` on a
malformed segment. -/
def filter_description_whitelist (description : List Char) :
    Option (List Char) :=
  match splitOnChar '|' description with
  | [] => none
  | first :: rest =>
    match filterSegs rest with
    | none => none
    | some kept => some (joinChar '|' (first :: kept))

theorem splitOnChar_ne_nil (c : Char) (l : List Char) :
    splitOnChar c l ≠ [] := by
  cases l with
  | nil => simp [splitOnChar]
  | cons x xs =>
    unfold splitOnChar
    by_cases h : x = c
    · simp [h]
    · rw [if_neg h]
      cases splitOnChar c xs <;> simp

theorem splitOnChar_of_not_mem (c : Char) (l : List Char) (h : c ∉ l) :
    splitOnChar c l = [l] := by
  induction l with
  | nil => rfl
  | cons x xs ih =>
    have hx : x ≠ c := fun he => h (by rw [he]; exact List.mem_cons_self c xs)
    have hxs : c ∉ xs := fun hm => h (List.mem_cons_of_mem x hm)
    unfold splitOnChar
    rw [if_neg hx, ih hxs]

theorem splitOnChar_append_sep (c : Char) (a b : List Char) (ha : c ∉ a) :
    splitOnChar c (a ++ c :: b) = a :: splitOnChar c b := by
  induction a with
  | nil =>
    show splitOnChar c (c :: b) = [] :: splitOnChar c b
    rw [splitOnChar, if_pos rfl]
  | cons x a' ih =>
    have hx : x ≠ c := fun he => ha (by rw [he]; exact List.mem_cons_self c a')
    have ha' : c ∉ a' := fun hm => ha (List.mem_cons_of_mem x hm)
    show splitOnChar c (x :: (a' ++ c :: b)) = (x :: a') :: splitOnChar c b
    rw [splitOnChar, if_neg hx, ih ha']

theorem length_splitOnChar (c : Char) (l : List Char) :
    (splitOnChar c l).length = l.count c + 1 := by
  induction l with
  | nil => rfl
  | cons x xs ih =>
    unfold splitOnChar
    by_cases h : x = c
    · rw [if_pos h]
      subst h
      simp [List.count_cons, ih]
    · rw [if_neg h]
      cases hs : splitOnChar c xs with
      | nil => exact absurd hs (splitOnChar_ne_nil c xs)
      | cons y ys =>
        rw [hs] at ih
        simp only [List.length_cons] at ih ⊢
        rw [List.count_cons]
        simp [h, Ne.symm h]
        omega

theorem not_mem_of_mem_splitOnChar (c : Char) (l : List Char) :
    ∀ x ∈ splitOnChar c l, c ∉ x := by
  induction l with
  | nil =>
    intro x hx
    simp [splitOnChar] at hx
    simp [hx]
  | cons y ys ih =>
    intro x hx
    unfold splitOnChar at hx
    by_cases h : y = c
    · rw [if_pos h] at hx
      rcases List.mem_cons.mp hx with he | he
      · simp [he]
      · exact ih x he
    · rw [if_neg h] at hx
      cases hs : splitOnChar c ys with
      | nil => exact absurd hs (splitOnChar_ne_nil c ys)
      | cons z zs =>
        rw [hs] at hx
        rcases List.mem_cons.mp hx with he | he
        · subst he
          intro hm
          rcases List.mem_cons.mp hm with he2 | he2
          · exact h he2.symm
          · exact ih z (hs ▸ List.mem_cons_self z zs) he2
        · exact ih x (hs ▸ List.mem_cons_of_mem z he)

theorem joinChar_splitOnChar (c : Char) :
    ∀ xs : List (List Char), xs ≠ [] → (∀ x ∈ xs, c ∉ x) →
      splitOnChar c (joinChar c xs) = xs := by
  intro xs
  induction xs with
  | nil => intro h; exact absurd rfl h
  | cons x rest ih =>
    intro _ hmem
    cases rest with
    | nil =>
      show splitOnChar c x = [x]
      exact splitOnChar_of_not_mem c x (hmem x (List.mem_cons_self x []))
    | cons y rest' =>
      show splitOnChar c (x ++ c :: joinChar c (y :: rest')) = x :: y :: rest'
      rw [splitOnChar_append_sep c x _ (hmem x (List.mem_cons_self x _))]
      rw [ih (by simp) fun z hz => hmem z (List.mem_cons_of_mem x hz)]

theorem splitOnChar_singleton (c : Char) :
    ∀ l y, splitOnChar c l = [y] → y = l ∧ c ∉ l := by
  intro l
  induction l with
  | nil =>
    intro y h
    simp [splitOnChar] at h
    simp [h]
  | cons x xs ih =>
    intro y h
    rw [splitOnChar] at h
    by_cases hx : x = c
    · rw [if_pos hx] at h
      injection h with h1 h2
      exact absurd h2 (splitOnChar_ne_nil c xs)
    · rw [if_neg hx] at h
      cases hs : splitOnChar c xs with
      | nil => exact absurd hs (splitOnChar_ne_nil c xs)
      | cons z zs =>
        rw [hs] at h
        injection h with h1 h2
        obtain ⟨hz, hnm⟩ := ih z (by rw [hs, h2])
        constructor
        · rw [← h1, hz]
        · intro hm
          rcases List.mem_cons.mp hm with he | he
          · exact hx he.symm
          · exact hnm he

theorem splitOnChar_pair (c : Char) :
    ∀ l a b, splitOnChar c l = [a, b] →
      l = a ++ c :: b ∧ c ∉ a ∧ c ∉ b := by
  intro l
  induction l with
  | nil =>
    intro a b h
    simp [splitOnChar] at h
  | cons x xs ih =>
    intro a b h
    rw [splitOnChar] at h
    by_cases hx : x = c
    · rw [if_pos hx] at h
      injection h with h1 h2
      obtain ⟨hb, hnb⟩ := splitOnChar_singleton c xs b h2
      refine ⟨?_, ?_, ?_⟩
      · rw [← h1, hb, hx]
        rfl
      · rw [← h1]
        simp
      · rw [hb]
        exact hnb
    · rw [if_neg hx] at h
      cases hs : splitOnChar c xs with
      | nil => exact absurd hs (splitOnChar_ne_nil c xs)
      | cons z zs =>
        rw [hs] at h
        injection h with h1 h2
        obtain ⟨hl, hna, hnb⟩ := ih z b (by rw [hs, h2])
        refine ⟨?_, ?_, hnb⟩
        · rw [← h1, hl]
          rfl
        · rw [← h1]
          intro hm
          rcases List.mem_cons.mp hm with he | he
          · exact hx he.symm
          · exact hna he

theorem exists_pair_of_count_one (c : Char) (l : List Char)
    (h : l.count c = 1) :
    ∃ a b, splitOnChar c l = [a, b] ∧ l = a ++ c :: b ∧ c ∉ a ∧ c ∉ b := by
  have hlen : (splitOnChar c l).length = 2 := by
    rw [length_splitOnChar, h]
  obtain ⟨a, b, hsp⟩ : ∃ a b, splitOnChar c l = [a, b] := by
    rcases hsp : splitOnChar c l with _ | ⟨a, _ | ⟨b, _ | _⟩⟩ <;>
      rw [hsp] at hlen <;> simp at hlen
    exact ⟨a, b, rfl⟩
  obtain ⟨hl, hna, hnb⟩ := splitOnChar_pair c l a b hsp
  exact ⟨a, b, hsp, hl, hna, hnb⟩

theorem takeWhile_append_sep (c : Char) (a b : List Char) (ha : c ∉ a) :
    ((a ++ c :: b).takeWhile fun x => x != c) = a := by
  induction a with
  | nil => simp [List.takeWhile]
  | cons x a' ih =>
    have hx : x ≠ c := fun he => ha (by rw [he]; exact List.mem_cons_self c a')
    have ha' : c ∉ a' := fun hm => ha (List.mem_cons_of_mem x hm)
    show ((x :: (a' ++ c :: b)).takeWhile fun y => y != c) = x :: a'
    rw [List.takeWhile_cons_of_pos (by simpa using hx), ih ha']

theorem filterSegs_eq_none_iff (segs : List (List Char)) :
    filterSegs segs = none ↔
      ∃ seg ∈ segs, (splitOnChar '=' seg).length ≠ 2 := by
  induction segs with
  | nil => simp [filterSegs]
  | cons seg rest ih =>
    constructor
    · intro h
      rcases hs : splitOnChar '=' seg with _ | ⟨k, _ | ⟨v, _ | _⟩⟩
      · exact ⟨seg, List.mem_cons_self _ _, by rw [hs]; simp⟩
      · exact ⟨seg, List.mem_cons_self _ _, by rw [hs]; simp⟩
      · rw [filterSegs, hs] at h
        cases hrest : filterSegs rest with
        | none =>
          obtain ⟨s, hsm, hsp⟩ := ih.mp hrest
          exact ⟨s, List.mem_cons_of_mem _ hsm, hsp⟩
        | some tl =>
          rw [hrest] at h
          have h2 : (if DESCRIPTION_KEY_WHITELIST.contains (stripChars k)
              then some ((k ++ '=' :: v) :: tl) else some tl) =
              (none : Option (List (List Char))) := h
          by_cases hc : DESCRIPTION_KEY_WHITELIST.contains (stripChars k)
          · rw [if_pos hc] at h2
            cases h2
          · rw [if_neg hc] at h2
            cases h2
      · exact ⟨seg, List.mem_cons_self _ _, by rw [hs]; simp⟩
    · rintro ⟨s, hsm, hsp⟩
      rcases List.mem_cons.mp hsm with he | he
      · subst he
        rcases hs : splitOnChar '=' s with _ | ⟨k, _ | ⟨v, _ | _⟩⟩
        · simp [filterSegs, hs]
        · simp [filterSegs, hs]
        · rw [hs] at hsp
          simp at hsp
        · simp [filterSegs, hs]
      · have hr : filterSegs rest = none := ih.mpr ⟨s, he, hsp⟩
        rcases hs : splitOnChar '=' seg with _ | ⟨k, _ | ⟨v, _ | _⟩⟩
        · simp [filterSegs, hs]
        · simp [filterSegs, hs]
        · simp [filterSegs, hs, hr]
        · simp [filterSegs, hs]

theorem filterSegs_of_wf (segs : List (List Char))
    (hwf : ∀ seg ∈ segs, seg.count '=' = 1) :
    filterSegs segs = some (segs.filter fun seg =>
      DESCRIPTION_KEY_WHITELIST.contains
        (stripChars (seg.takeWhile fun x => x != '='))) := by
  induction segs with
  | nil => rfl
  | cons seg rest ih =>
    obtain ⟨a, b, hsp, hl, hna, _⟩ :=
      exists_pair_of_count_one '=' seg (hwf seg (List.mem_cons_self _ _))
    have htk : (seg.takeWhile fun x => x != '=') = a := by
      rw [hl]
      exact takeWhile_append_sep '=' a b hna
    have hrest := ih fun s hs' => hwf s (List.mem_cons_of_mem _ hs')
    by_cases hc : DESCRIPTION_KEY_WHITELIST.contains (stripChars a)
    · rw [List.filter_cons_of_pos (by rw [htk]; exact hc)]
      simp only [filterSegs, hsp, hrest, if_pos hc]
      rw [← hl]
    · rw [List.filter_cons_of_neg (by rw [htk]; simpa using hc)]
      simp only [filterSegs, hsp, hrest, if_neg hc]

/-- C2: on a description whose non-first pipe-delimited segments each
contain exactly one `=`, the filter keeps the first segment verbatim
and exactly those subsequent segments whose trimmed key is on the
allow-list, each unchanged, rejoined with `|` in original order. -/
theorem filter_description_keeps_whitelisted (d first : List Char)
    (rest : List (List Char))
    (hsplit : splitOnChar '|' d = first :: rest)
    (hwf : ∀ seg ∈ rest, seg.count '=' = 1) :
    filter_description_whitelist d =
      some (joinChar '|' (first :: rest.filter fun seg =>
        DESCRIPTION_KEY_WHITELIST.contains
          (stripChars (seg.takeWhile fun x => x != '=')))) := by
  simp only [filter_description_whitelist, hsplit, filterSegs_of_wf rest hwf]

/-- Closed instantiation of `filter_description_keeps_whitelisted` on
the spec's example: `Date` and `AppMag` survive, `ScanScope ID` is
dropped. -/
theorem filter_description_keeps_whitelisted_witness :
    filter_description_whitelist
        ("Aperio Image|Date=1/1/2020|ScanScope ID=ABC123|AppMag=20".data) =
      some ("Aperio Image|Date=1/1/2020|AppMag=20".data) :=
  (filter_description_keeps_whitelisted
      ("Aperio Image|Date=1/1/2020|ScanScope ID=ABC123|AppMag=20".data)
      ("Aperio Image".data)
      ["Date=1/1/2020".data, "ScanScope ID=ABC123".data, "AppMag=20".data]
      (by decide) (by decide)).trans (by decide)

/-- C6: the filter fails (the source's `assert len(entries) == 2`)
exactly when some segment after the first does not contain exactly one
`=`; in particular it fails on `A|BadSegment|Date=1`. -/
theorem filter_description_fails_iff :
    filter_description_whitelist ("A|BadSegment|Date=1".data) = none ∧
      ∀ d : List Char,
        (filter_description_whitelist d = none ↔
          ∃ seg ∈ (splitOnChar '|' d).tail, seg.count '=' ≠ 1) := by
  constructor
  · decide
  · intro d
    cases hsplit : splitOnChar '|' d with
    | nil => exact absurd hsplit (splitOnChar_ne_nil _ _)
    | cons first rest =>
      simp only [filter_description_whitelist, hsplit, List.tail_cons]
      cases hfs : filterSegs rest with
      | none =>
        simp only
        constructor
        · intro _
          obtain ⟨s, hm, hl⟩ := (filterSegs_eq_none_iff rest).mp hfs
          refine ⟨s, hm, ?_⟩
          rw [length_splitOnChar] at hl
          omega
        · intro _
          trivial
      | some kept =>
        simp only
        constructor
        · intro h
          cases h
        · rintro ⟨s, hm, hcnt⟩
          exfalso
          have hn : filterSegs rest = none :=
            (filterSegs_eq_none_iff rest).mpr
              ⟨s, hm, by rw [length_splitOnChar]; omega⟩
          rw [hfs] at hn
          cases hn

/-- C10: the filter is idempotent — a successful output refilters to
itself — and a description with no `|` at all is returned verbatim. -/
theorem filter_description_idempotent :
    (∀ d : List Char, d.count '|' = 0 →
      filter_description_whitelist d = some d) ∧
      ∀ d r : List Char, filter_description_whitelist d = some r →
        filter_description_whitelist r = some r := by
  constructor
  · intro d hd
    have hnm : '|' ∉ d := by
      rw [← List.count_eq_zero]
      exact hd
    simp only [filter_description_whitelist,
      splitOnChar_of_not_mem '|' d hnm, filterSegs]
    rfl
  · intro d r h
    cases hsplit : splitOnChar '|' d with
    | nil => exact absurd hsplit (splitOnChar_ne_nil _ _)
    | cons first rest =>
      simp only [filter_description_whitelist, hsplit] at h
      cases hfs : filterSegs rest with
      | none =>
        rw [hfs] at h
        cases h
      | some kept =>
        rw [hfs] at h
        injection h with hr
        have hwf : ∀ seg ∈ rest, seg.count '=' = 1 := by
          intro seg hm
          by_contra hc
          have hn : filterSegs rest = none :=
            (filterSegs_eq_none_iff rest).mpr
              ⟨seg, hm, by rw [length_splitOnChar]; omega⟩
          rw [hfs] at hn
          cases hn
        have hkept : kept = rest.filter fun seg =>
            DESCRIPTION_KEY_WHITELIST.contains
              (stripChars (seg.takeWhile fun x => x != '=')) := by
          have hfw := filterSegs_of_wf rest hwf
          rw [hfs] at hfw
          injection hfw
        have hnone : ∀ x ∈ first :: kept, '|' ∉ x := by
          intro x hx
          rcases List.mem_cons.mp hx with he | he
          · subst he
            exact not_mem_of_mem_splitOnChar '|' d x
              (hsplit ▸ List.mem_cons_self x rest)
          · have hxr : x ∈ rest := by
              rw [hkept] at he
              exact (List.mem_filter.mp he).1
            exact not_mem_of_mem_splitOnChar '|' d x
              (hsplit ▸ List.mem_cons_of_mem first hxr)
        have hsplit_r : splitOnChar '|' r = first :: kept := by
          rw [← hr]
          exact joinChar_splitOnChar '|' (first :: kept) (by simp) hnone
        have hwf_k : ∀ seg ∈ kept, seg.count '=' = 1 := by
          intro seg hm
          rw [hkept] at hm
          exact hwf seg (List.mem_filter.mp hm).1
        have hidem : (kept.filter fun seg =>
            DESCRIPTION_KEY_WHITELIST.contains
              (stripChars (seg.takeWhile fun x => x != '='))) = kept := by
          apply List.filter_eq_self.mpr
          intro x hx
          rw [hkept] at hx
          exact (List.mem_filter.mp hx).2
        simp only [filter_description_whitelist, hsplit_r,
          filterSegs_of_wf kept hwf_k, hidem, hr]

/-- Closed instantiation of the idempotence half of
`filter_description_idempotent` on the spec's example output. -/
theorem filter_description_idempotent_witness :
    filter_description_whitelist
        ("Aperio Image|Date=1/1/2020|AppMag=20".data) =
      some ("Aperio Image|Date=1/1/2020|AppMag=20".data) :=
  filter_description_idempotent.2
    ("Aperio Image|Date=1/1/2020|ScanScope ID=ABC123|AppMag=20".data)
    ("Aperio Image|Date=1/1/2020|AppMag=20".data) (by decide)

/-! ### Streaming hash / copy

`copy_with_hash` and `compute_hash` read `BUF_SIZE` bytes at a time
(`while data := f_src.read(BUF_SIZE)`), feeding each chunk to the
running SHA-1 digest.  The digest state update of the external
`hashlib` library is modelled as an abstract `upd` function over an
abstract state type. -/

def BUF_SIZE : Nat := 1024 * 1024

/-- The successive chunks a full read loop yields. -/
def chunksOf : List Nat → List (List Nat)
  | [] => []
  | x :: xs => ((x :: xs).take BUF_SIZE) :: chunksOf ((x :: xs).drop BUF_SIZE)
termination_by l => l.length
decreasing_by
  simp [BUF_SIZE]
  omega

/-- `copy_with_hash(source_file, dest_file)`: per chunk, update the
digest state and append the chunk to the destination; returns the
final digest state together with the destination contents. -/
def copy_with_hash {α : Type} (upd : α → List Nat → α) (init : α) :
    List Nat → α × List Nat
  | [] => (init, [])
  | x :: xs =>
    let data := (x :: xs).take BUF_SIZE
    let rest := copy_with_hash upd (upd init data) ((x :: xs).drop BUF_SIZE)
    (rest.1, data ++ rest.2)
termination_by l => l.length
decreasing_by
  simp [BUF_SIZE]
  omega

/-- `compute_hash(source_file)`: the same loop without writing. -/
def compute_hash {α : Type} (upd : α → List Nat → α) (init : α) :
    List Nat → α
  | [] => init
  | x :: xs =>
    compute_hash upd (upd init ((x :: xs).take BUF_SIZE))
      ((x :: xs).drop BUF_SIZE)
termination_by l => l.length
decreasing_by
  simp [BUF_SIZE]
  omega

theorem copy_with_hash_snd {α : Type} (upd : α → List Nat → α) :
    ∀ (n : Nat) (src : List Nat) (init : α), src.length ≤ n →
      (copy_with_hash upd init src).2 = src := by
  intro n
  induction n with
  | zero =>
    intro src init h
    have : src = [] := by
      cases src with
      | nil => rfl
      | cons x xs => simp at h
    subst this
    simp [copy_with_hash]
  | succ n ih =>
    intro src init h
    cases src with
    | nil => simp [copy_with_hash]
    | cons x xs =>
      rw [copy_with_hash]
      rw [ih ((x :: xs).drop BUF_SIZE) _ (by simp [BUF_SIZE] at h ⊢; omega)]
      exact List.take_append_drop BUF_SIZE (x :: xs)

theorem copy_with_hash_fst {α : Type} (upd : α → List Nat → α) :
    ∀ (n : Nat) (src : List Nat) (init : α), src.length ≤ n →
      (copy_with_hash upd init src).1 = compute_hash upd init src := by
  intro n
  induction n with
  | zero =>
    intro src init h
    have : src = [] := by
      cases src with
      | nil => rfl
      | cons x xs => simp at h
    subst this
    simp [copy_with_hash, compute_hash]
  | succ n ih =>
    intro src init h
    cases src with
    | nil => simp [copy_with_hash, compute_hash]
    | cons x xs =>
      rw [copy_with_hash, compute_hash]
      exact ih ((x :: xs).drop BUF_SIZE) _ (by simp [BUF_SIZE] at h ⊢; omega)

theorem compute_hash_eq_foldl {α : Type} (upd : α → List Nat → α) :
    ∀ (n : Nat) (src : List Nat) (init : α), src.length ≤ n →
      compute_hash upd init src = (chunksOf src).foldl upd init := by
  intro n
  induction n with
  | zero =>
    intro src init h
    have : src = [] := by
      cases src with
      | nil => rfl
      | cons x xs => simp at h
    subst this
    simp [compute_hash, chunksOf]
  | succ n ih =>
    intro src init h
    cases src with
    | nil => simp [compute_hash, chunksOf]
    | cons x xs =>
      rw [compute_hash, chunksOf, List.foldl_cons]
      exact ih ((x :: xs).drop BUF_SIZE) _ (by simp [BUF_SIZE] at h ⊢; omega)

theorem chunksOf_bounded :
    ∀ (n : Nat) (src : List Nat), src.length ≤ n →
      ∀ c ∈ chunksOf src, c.length ≤ BUF_SIZE := by
  intro n
  induction n with
  | zero =>
    intro src h c hc
    have : src = [] := by
      cases src with
      | nil => rfl
      | cons x xs => simp at h
    subst this
    simp [chunksOf] at hc
  | succ n ih =>
    intro src h c hc
    cases src with
    | nil => simp [chunksOf] at hc
    | cons x xs =>
      rw [chunksOf] at hc
      rcases List.mem_cons.mp hc with he | he
      · rw [he]
        simp
      · exact ih ((x :: xs).drop BUF_SIZE) (by simp [BUF_SIZE] at h ⊢; omega) c he

/-- C9: the copy writes a destination byte-identical to the source;
its returned digest equals the digest of the destination it wrote and
the digest of the source; `compute_hash` is a pure fold of the chunk
update over the bounded `BUF_SIZE`-sized chunks of the file, hence
deterministic across calls on unchanged contents. -/
theorem copy_with_hash_spec {α : Type} (upd : α → List Nat → α) (init : α)
    (src : List Nat) :
    (copy_with_hash upd init src).2 = src ∧
      (copy_with_hash upd init src).1 =
        compute_hash upd init (copy_with_hash upd init src).2 ∧
      (copy_with_hash upd init src).1 = compute_hash upd init src ∧
      compute_hash upd init src = (chunksOf src).foldl upd init ∧
      ∀ c ∈ chunksOf src, c.length ≤ BUF_SIZE := by
  have h2 := copy_with_hash_snd upd src.length src init (le_refl _)
  have h1 := copy_with_hash_fst upd src.length src init (le_refl _)
  refine ⟨h2, ?_, h1, ?_, ?_⟩
  · rw [h2, h1]
  · exact compute_hash_eq_foldl upd src.length src init (le_refl _)
  · exact chunksOf_bounded src.length src (le_refl _)

end Svs
